/-
Verification of the detecterreur French error-correction engine.

Words and sentences are embedded as `List Char` (a Python `str` is a sequence
of characters).  Python string predicates (`isupper`, `istitle`, `lower`,
`capitalize`, `\w` word characters) are modelled over the character repertoire
this engine operates on: ASCII letters and digits, the underscore, and the
accented French letters appearing in the source's BASE_MAP; the tables below
enumerate the case pairs explicitly.

The regex scans of the source (`\b\w+\b` via re.findall / re.finditer and
`\w+|[^\w\s]|\s+` via re.findall) are embedded as maximal-run segmentation of
the input into word runs and non-word runs: on every input these regexes match
exactly the maximal runs of word characters (resp. the complementary material),
and the finer non-word tokens of the second regex (whitespace runs, single
punctuation characters) are all passed through verbatim by the code that uses
it, so the coarse segmentation is output-equivalent.

pyspellchecker (an external library) is modelled by its documented Norvig-style
behaviour: `edit_distance_1` is the set of deletes, adjacent transposes,
replaces and inserts over the alphabet of letters occurring in the dictionary;
`candidates` returns the word itself when known, else the known words of the
edit-1 set (the library's pre-checks for numerals and over-long words, its
set-deduplication, and internal lowercasing of already-lowercase inputs are
inessential here and noted where relevant).  Word frequencies are the
dictionary's non-negative counts; `word_usage_frequency` is count / total.
Every comparison of usage frequencies in the source compares two values with
the same positive denominator (the dictionary total), so those comparisons are
embedded as their exact integer forms on the counts (`best / T > 10 * (cur / T)`
iff `10 * cur < best`); the library's float arithmetic agrees exactly on the
power-of-two totals used in the concrete witnesses below.
-/
import Mathlib

abbrev Word := List Char

/-- Case pairs (uppercase, lowercase) for the character repertoire: ASCII
letters plus the French accented letters of the source's BASE_MAP. -/
def caseTable : List (Char × Char) :=
  [('A', 'a'), ('B', 'b'), ('C', 'c'), ('D', 'd'), ('E', 'e'), ('F', 'f'),
   ('G', 'g'), ('H', 'h'), ('I', 'i'), ('J', 'j'), ('K', 'k'), ('L', 'l'),
   ('M', 'm'), ('N', 'n'), ('O', 'o'), ('P', 'p'), ('Q', 'q'), ('R', 'r'),
   ('S', 's'), ('T', 't'), ('U', 'u'), ('V', 'v'), ('W', 'w'), ('X', 'x'),
   ('Y', 'y'), ('Z', 'z'),
   ('À', 'à'), ('Â', 'â'), ('Ä', 'ä'), ('Ç', 'ç'), ('È', 'è'), ('É', 'é'),
   ('Ê', 'ê'), ('Ë', 'ë'), ('Î', 'î'), ('Ï', 'ï'), ('Ô', 'ô'), ('Ö', 'ö'),
   ('Ù', 'ù'), ('Û', 'û'), ('Ü', 'ü')]

/-- Python `str.lower` on one character. -/
def pyLowerChar (c : Char) : Char :=
  (((caseTable.find? (fun p => p.1 == c)).map (fun p => p.2)).getD c)

/-- Python `str.upper` on one character. -/
def pyUpperChar (c : Char) : Char :=
  (((caseTable.find? (fun p => p.2 == c)).map (fun p => p.1)).getD c)

/-- Is `c` an uppercase (cased) character? -/
def isUpperChar (c : Char) : Bool := (caseTable.find? (fun p => p.1 == c)).isSome

/-- Is `c` a lowercase (cased) character? -/
def isLowerChar (c : Char) : Bool := (caseTable.find? (fun p => p.2 == c)).isSome

/-- Is `c` cased (a letter of the repertoire)? -/
def isCasedChar (c : Char) : Bool := isUpperChar c || isLowerChar c

/-- Python `str.isalnum` on one character (letters of the repertoire plus digits). -/
def pyIsAlnumChar (c : Char) : Bool := isCasedChar c || c.isDigit

/-- A regex `\w` word character: alphanumeric or underscore. -/
def isWordChar (c : Char) : Bool := pyIsAlnumChar c || c == '_'

/-- Python `string.punctuation` (32 ASCII characters; the apostrophe, backtick
and braces are written by code point). -/
def punctChars : List Char :=
  ['!', '"', '#', '$', '%', '&', Char.ofNat 39, '(', ')', '*', '+', ',', '-',
   '.', '/', ':', ';', '<', '=', '>', '?', '@', '[', '\\', ']', '^', '_',
   Char.ofNat 96, Char.ofNat 123, '|', Char.ofNat 125, '~']

/-- `str.translate(self.punct_table)`: remove every `string.punctuation` character. -/
def stripPunct (w : Word) : Word := w.filter (fun c => ! punctChars.contains c)

/-- Python `str.strip()`: remove leading and trailing whitespace. -/
def pyStrip (w : Word) : Word :=
  ((w.dropWhile Char.isWhitespace).reverse.dropWhile Char.isWhitespace).reverse

/-- Python `str.lower` on a string. -/
def pyLowerStr (w : Word) : Word := w.map pyLowerChar

/-- Python `str.upper` on a string. -/
def pyUpperStr (w : Word) : Word := w.map pyUpperChar

/-- Python `str.capitalize`: first character uppercased, the rest lowercased. -/
def pyCapitalize : Word → Word
  | [] => []
  | c :: cs => pyUpperChar c :: cs.map pyLowerChar

/-- Python `str.isupper`: at least one cased character and no lowercase cased character. -/
def pyIsUpper (w : Word) : Bool :=
  w.any isCasedChar && w.all (fun c => ! isCasedChar c || isUpperChar c)

/-- Helper for `str.istitle`: the flag records whether the previous character was cased. -/
def pyTitleOK : Bool → Word → Bool
  | _, [] => true
  | prev, c :: cs =>
    if isUpperChar c then ! prev && pyTitleOK true cs
    else if isLowerChar c then prev && pyTitleOK true cs
    else pyTitleOK false cs

/-- Python `str.istitle`: at least one cased character, uppercase characters
follow only uncased ones, lowercase characters follow only cased ones. -/
def pyIsTitle (w : Word) : Bool := w.any isCasedChar && pyTitleOK false w

/-- `_match_case` shared by LetterMissing / LetterSubstitution / LetterOrder /
FormDiacritic: upper-case the replacement for a fully upper-case original,
capitalize it for a title-case original, else leave it as generated. -/
def matchCase (original corrected : Word) : Word :=
  if pyIsUpper original then pyUpperStr corrected
  else if pyIsTitle original then pyCapitalize corrected
  else corrected

/-- A maximal run of the input: a word (`\w+` match) or the non-word material
between two matches. -/
inductive Seg where
  | word : Word → Seg
  | gap : Word → Seg
deriving DecidableEq

/-- The characters of a run. -/
def Seg.text : Seg → Word
  | .word w => w
  | .gap g => g

/-- Extend a segmentation one character to the left: a word character joins a
leading word run (or opens one), other characters join a leading non-word run
(or open one). -/
def segCons (c : Char) (segs : List Seg) : List Seg :=
  if isWordChar c then
    match segs with
    | Seg.word w :: rest => Seg.word (c :: w) :: rest
    | _ => Seg.word [c] :: segs
  else
    match segs with
    | Seg.gap g :: rest => Seg.gap (c :: g) :: rest
    | _ => Seg.gap [c] :: segs

/-- Split a sentence into its maximal word runs and non-word runs, in order.
This is the semantics of `re.findall(r"\b\w+\b", s)` (the word runs) and of
`re.finditer` over the same pattern (the word runs with their offsets); the
lemma segmentize_cons_eq below restates it as peeling maximal takeWhile runs. -/
def segmentize (s : List Char) : List Seg := s.foldr segCons []

/-- Reassemble a list of runs. -/
def joinSegs (segs : List Seg) : Word := (segs.map Seg.text).flatten

/-- The word runs of a segmentation. -/
def segWords (segs : List Seg) : List Word :=
  segs.filterMap (fun sg => match sg with | .word w => some w | .gap _ => none)

/-- The `(start, word)` pairs of the word runs, accumulating offsets from `p`:
the spans delivered by `re.finditer(r"\b\w+\b", s)`. -/
def matchesAux : Nat → List Seg → List (Nat × Word)
  | _, [] => []
  | p, .gap g :: rest => matchesAux (p + g.length) rest
  | p, .word w :: rest => (p, w) :: matchesAux (p + w.length) rest

/-- The `(start, word)` pairs of all `\b\w+\b` matches of a sentence. -/
def matchesOf (s : List Char) : List (Nat × Word) := matchesAux 0 (segmentize s)

/-- The words of all `\b\w+\b` matches of a sentence (re.findall). -/
def wordsOf (s : List Char) : List Word := (matchesOf s).map (fun m => m.2)

/-- One in-place replacement `corrected[:start] + fix + corrected[end:]`. -/
def splice (s : Word) (m : Nat × Nat × Word) : Word :=
  s.take m.1 ++ m.2.2 ++ s.drop m.2.1

/-- `for match in reversed(matches): ...` — apply the replacements right to left. -/
def applyReversed (s : Word) (ms : List (Nat × Nat × Word)) : Word :=
  ms.reverse.foldl splice s

/-- The `(start, end, replacement)` triples a classifier decides to apply: its
per-word function `pw` yields `some fix` exactly when the loop body reaches the
splice (a skipped word contributes nothing). -/
def replacementsOf (pw : Word → Option Word) (s : List Char) :
    List (Nat × Nat × Word) :=
  (matchesOf s).filterMap
    (fun m => (pw m.2).map (fun r => (m.1, m.1 + m.2.length, r)))

/-- The shared corrector shape of the four letter classifiers: compute the
match spans on the original sentence, then splice the chosen replacements in
descending start order. -/
def spliceCorrect (pw : Word → Option Word) (s : List Char) : Word :=
  applyReversed s (replacementsOf pw s)

/-- Rebuild a sentence with every word run transformed by `f` and every
non-word run kept verbatim. -/
def rejoinWith (f : Word → Word) (s : List Char) : Word :=
  ((segmentize s).map (fun sg => match sg with
    | Seg.word w => f w
    | Seg.gap g => g)).flatten

/-- Python `max(xs, key=f)` starting from a first element: keeps the current
maximum and replaces it only on a strictly larger key, so ties go to the
earliest element. -/
def pyMaxBy {β : Type} [LinearOrder β] (f : Word → β) : Word → List Word → Word
  | best, [] => best
  | best, x :: xs => if f best < f x then pyMaxBy f x xs else pyMaxBy f best xs

/-- `_is_subsequence(sub, main)`: greedy matching, as the source's
`it = iter(main); all(char in it for char in sub)`. -/
def isSubsequence : Word → Word → Bool
  | [], _ => true
  | _ :: _, [] => false
  | a :: s, b :: m => if a == b then isSubsequence s m else isSubsequence (a :: s) m

/-- All `(prefix, suffix)` splits of a word, left to right. -/
def pySplits (w : Word) : List (Word × Word) :=
  (List.range (w.length + 1)).map (fun i => (w.take i, w.drop i))

/-- Norvig deletes: drop one character. -/
def pyDeletes (w : Word) : List Word :=
  (pySplits w).filterMap (fun p => match p.2 with
    | [] => none
    | _ :: t => some (p.1 ++ t))

/-- Norvig transposes: swap one adjacent pair. -/
def pyTransposes (w : Word) : List Word :=
  (pySplits w).filterMap (fun p => match p.2 with
    | a :: b :: t => some (p.1 ++ b :: a :: t)
    | _ => none)

/-- Norvig replaces: substitute one character by an alphabet letter. -/
def pyReplaces (letters : List Char) (w : Word) : List Word :=
  ((pySplits w).map (fun p => match p.2 with
    | [] => []
    | _ :: t => letters.map (fun c => p.1 ++ c :: t))).flatten

/-- Norvig inserts: insert one alphabet letter. -/
def pyInserts (letters : List Char) (w : Word) : List Word :=
  ((pySplits w).map (fun p => letters.map (fun c => p.1 ++ c :: p.2))).flatten

/-- pyspellchecker `edit_distance_1`: deletes, transposes, replaces and inserts
over the dictionary's alphabet (returned as a list; the library returns a set,
which only affects duplicate entries and is immaterial to emptiness and to
frequency maxima). -/
def edits1 (letters : List Char) (w : Word) : List Word :=
  pyDeletes w ++ pyTransposes w ++ pyReplaces letters w ++ pyInserts letters w

/-- pyspellchecker `edit_distance_2`: one more edit round on every edit-1 word. -/
def edits2 (letters : List Char) (w : Word) : List Word :=
  ((edits1 letters w).map (edits1 letters)).flatten

/-- A frequency dictionary: lowercase word forms with their usage counts.
Loaded once, read-only; wraps pyspellchecker's WordFrequency. -/
structure Lexicon where
  entries : List (Word × Nat)

/-- `spell.word_frequency[w]`: the count, 0 when absent (a Counter). -/
def Lexicon.freqOf (lex : Lexicon) (w : Word) : Nat :=
  (((lex.entries.find? (fun p => p.1 == w)).map (fun p => p.2)).getD 0)

/-- `w in spell` / `w in spell.word_frequency`: membership. -/
def Lexicon.known (lex : Lexicon) (w : Word) : Bool :=
  (lex.entries.find? (fun p => p.1 == w)).isSome

/-- `self._word_frequency.letters`: the alphabet of characters occurring in
dictionary words. -/
def Lexicon.letters (lex : Lexicon) : List Char :=
  ((lex.entries.map (fun p => p.1)).flatten).dedup

/-- pyspellchecker `candidates` at the configured distance: the word itself
when known, otherwise the known words of the edit-1 set, otherwise (at
distance 2) the known words of the edit-2 set; an empty list stands for the
library's `None`. -/
def Lexicon.candidates (lex : Lexicon) (dist : Nat) (w : Word) : List Word :=
  if lex.known w then [w]
  else
    let e1 := (edits1 lex.letters w).filter lex.known
    if ! e1.isEmpty then e1
    else if dist == 2 then (edits2 lex.letters w).filter lex.known
    else []

/-- All counts of a well-formed dictionary are positive (loaded word lists map
every entry to at least one occurrence). -/
def Lexicon.WF (lex : Lexicon) : Prop := ∀ p ∈ lex.entries, 1 ≤ p.2

/-- The safety Validator (singleton over spaCy's vocabulary and its own
frequency dictionary): a token is valid when, after strip/lower, it has length
at least 2 (or is one of the single-letter exceptions) and is either in the
spaCy vocabulary or known to the dictionary. -/
structure ValidatorM where
  vocab : List Word
  lex : Lexicon

/-- `Validator.is_valid`. -/
def ValidatorM.isValid (v : ValidatorM) (w : Word) : Bool :=
  let wc := pyLowerStr (pyStrip w)
  if wc.length < 2 && ! ([['y'], ['a'], ['à']].contains wc) then false
  else if v.vocab.contains wc then true
  else v.lex.known wc

/-- LetterMissing `_get_missing_correction`: among the candidates, keep those
strictly longer (by at most the distance) of which the word is a subsequence,
and return the most frequent one. -/
def lmGetMissingCorrection (lex : Lexicon) (dist : Nat) (word : Word) : Option Word :=
  if word.isEmpty then none
  else
    let candidates := lex.candidates dist word
    if candidates.isEmpty then none
    else
      let valid := candidates.filter (fun c =>
        decide (word.length < c.length) &&
        decide (c.length - word.length ≤ dist) &&
        isSubsequence word c)
      match valid with
      | [] => none
      | v :: vs => some (pyMaxBy lex.freqOf v vs)

/-- LetterMissing `is_error`. -/
def lmIsError (lex : Lexicon) (dist : Nat) (word : Word) : Bool :=
  (lmGetMissingCorrection lex dist (pyLowerStr word)).isSome

/-- LetterMissing `get_error` (the boolean of the result triple; category and
name are the static ORTHOGRAPHE / OMIS). -/
def lmGetError (v : Word → Bool) (lex : Lexicon) (dist : Nat) (s : List Char) : Bool :=
  (wordsOf s).any (fun w => ! v w && lmIsError lex dist w)

/-- The body of LetterMissing's correction loop for one matched word: skip
validator-approved words, skip dictionary words, else replace by the
case-matched correction when one exists. -/
def lmPerWord (v : Word → Bool) (lex : Lexicon) (dist : Nat) (w : Word) : Option Word :=
  if v w then none
  else if lex.known (pyLowerStr w) then none
  else match lmGetMissingCorrection lex dist (pyLowerStr w) with
    | none => none
    | some fix => some (matchCase w fix)

/-- LetterMissing `correct`. -/
def lmCorrect (v : Word → Bool) (lex : Lexicon) (dist : Nat) (s : List Char) : Word :=
  spliceCorrect (lmPerWord v lex dist) s

/-- LetterInsertion `_get_correction`: among the candidates, keep the strictly
shorter ones (by at most the distance) that are subsequences of the word, and
return the most frequent one. -/
def liGetCorrection (lex : Lexicon) (dist : Nat) (word : Word) : Option Word :=
  let wl := pyLowerStr word
  let candidates := lex.candidates dist wl
  if candidates.isEmpty then none
  else
    let valid := candidates.filter (fun c =>
      decide (c.length < wl.length) &&
      decide (wl.length - c.length ≤ dist) &&
      isSubsequence c wl)
    match valid with
    | [] => none
    | x :: xs => some (pyMaxBy lex.freqOf x xs)

/-- LetterInsertion `get_error` (boolean; category ORTHOGRAPHE, name OINS). -/
def liGetError (v : Word → Bool) (lex : Lexicon) (dist : Nat) (s : List Char) : Bool :=
  (wordsOf s).any (fun w =>
    ! v w && ! lex.known (pyLowerStr w) && (liGetCorrection lex dist w).isSome)

/-- The body of LetterInsertion's correction loop for one matched word; note
the case handling: the fix is capitalized when the first character is
uppercase, with no full upper-case branch. -/
def liPerWord (v : Word → Bool) (lex : Lexicon) (dist : Nat) (w : Word) : Option Word :=
  if v w then none
  else if lex.known (pyLowerStr w) then none
  else match liGetCorrection lex dist w with
    | none => none
    | some fix => some (if isUpperChar (w.headD ' ') then pyCapitalize fix else fix)

/-- LetterInsertion `correct`. -/
def liCorrect (v : Word → Bool) (lex : Lexicon) (dist : Nat) (s : List Char) : Word :=
  spliceCorrect (liPerWord v lex dist) s

/-- Hamming difference count over `zip` (the source's
`sum(1 for a, b in zip(...) if a != b)`). -/
def hammingDiff (a b : Word) : Nat :=
  ((a.zip b).filter (fun p => p.1 != p.2)).length

/-- LetterSubstitution `_get_substitution_correction`: among the candidates,
keep the equal-length ones at Hamming distance between 1 and the configured
distance, and return the most frequent one. -/
def lsGetSubstitutionCorrection (lex : Lexicon) (dist : Nat) (word : Word) : Option Word :=
  let wl := pyLowerStr word
  let candidates := lex.candidates dist wl
  if candidates.isEmpty then none
  else
    let valid := candidates.filterMap (fun c =>
      let cl := pyLowerStr c
      if cl.length == wl.length then
        let diff := hammingDiff wl cl
        if 1 ≤ diff ∧ diff ≤ dist then some cl else none
      else none)
    match valid with
    | [] => none
    | x :: xs => some (pyMaxBy lex.freqOf x xs)

/-- LetterSubstitution `get_error` (boolean; category ORTHOGRAPHE, name OSUB). -/
def lsGetError (v : Word → Bool) (lex : Lexicon) (dist : Nat) (s : List Char) : Bool :=
  (wordsOf s).any (fun w =>
    ! v w && ! lex.known (pyLowerStr w) && (lsGetSubstitutionCorrection lex dist w).isSome)

/-- The body of LetterSubstitution's correction loop for one matched word. -/
def lsPerWord (v : Word → Bool) (lex : Lexicon) (dist : Nat) (w : Word) : Option Word :=
  if v w then none
  else if lex.known (pyLowerStr w) then none
  else match lsGetSubstitutionCorrection lex dist w with
    | none => none
    | some fix => some (matchCase w fix)

/-- LetterSubstitution `correct`. -/
def lsCorrect (v : Word → Bool) (lex : Lexicon) (dist : Nat) (s : List Char) : Word :=
  spliceCorrect (lsPerWord v lex dist) s

/-- Swap the adjacent pair at positions `i`, `i+1`. -/
def swapAt : Word → Nat → Word
  | a :: b :: t, 0 => b :: a :: t
  | a :: t, Nat.succ i => a :: swapAt t i
  | l, _ => l

/-- LetterOrder `_can_be_obtained_by_swapping`: equal lengths, equal sorted
character lists (anagram pre-check), and some single adjacent swap of `word`
yields `candidate`. -/
def canBeObtainedBySwapping (word candidate : Word) : Bool :=
  if word.length != candidate.length then false
  else if List.insertionSort (fun a b => a ≤ b) word ≠
          List.insertionSort (fun a b => a ≤ b) candidate then false
  else (List.range (word.length - 1)).any (fun i => swapAt word i == candidate)

/-- LetterOrder `_get_order_correction`: keep the candidates reachable by one
adjacent swap and return the most frequent one (LetterOrder is constructed with
distance 1). -/
def loGetOrderCorrection (lex : Lexicon) (word : Word) : Option Word :=
  if word.isEmpty then none
  else
    let candidates := lex.candidates 1 word
    if candidates.isEmpty then none
    else
      let valid := candidates.filter (fun c => canBeObtainedBySwapping word c)
      match valid with
      | [] => none
      | x :: xs => some (pyMaxBy lex.freqOf x xs)

/-- LetterOrder `get_error` (boolean; category ORTHOGRAPHE, name OORD). -/
def loGetError (v : Word → Bool) (lex : Lexicon) (s : List Char) : Bool :=
  (wordsOf s).any (fun w => ! v w && (loGetOrderCorrection lex (pyLowerStr w)).isSome)

/-- The body of LetterOrder's correction loop for one matched word (no
dictionary skip: only the validator gate). -/
def loPerWord (v : Word → Bool) (lex : Lexicon) (w : Word) : Option Word :=
  if v w then none
  else match loGetOrderCorrection lex (pyLowerStr w) with
    | none => none
    | some fix => some (matchCase w fix)

/-- LetterOrder `correct`. -/
def loCorrect (v : Word → Bool) (lex : Lexicon) (s : List Char) : Word :=
  spliceCorrect (loPerWord v lex) s

/-- FormDiacritic BASE_MAP: characters swappable in a diacritic error, mapped
to their base letter. -/
def baseMap : List (Char × Char) :=
  [('a', 'a'), ('à', 'a'), ('â', 'a'), ('ä', 'a'),
   ('e', 'e'), ('é', 'e'), ('è', 'e'), ('ê', 'e'), ('ë', 'e'),
   ('i', 'i'), ('î', 'i'), ('ï', 'i'),
   ('o', 'o'), ('ô', 'o'), ('ö', 'o'),
   ('u', 'u'), ('ù', 'u'), ('û', 'u'), ('ü', 'u'),
   ('c', 'c'), ('ç', 'c')]

/-- `BASE_MAP.get(c, c)`. -/
def baseOf (c : Char) : Char :=
  (((baseMap.find? (fun p => p.1 == c)).map (fun p => p.2)).getD c)

/-- FormDiacritic `_are_diacritic_siblings`: equal lengths, every differing
position has matching base letters, and at most `dist` positions differ (0
differences allowed, for frequency comparison with the word itself). -/
def areDiacriticSiblings (dist : Nat) (w1 w2 : Word) : Bool :=
  if w1.length != w2.length then false
  else
    let diffs := (w1.zip w2).filter (fun p => p.1 != p.2)
    diffs.all (fun p => baseOf p.1 == baseOf p.2) && decide (diffs.length ≤ dist)

/-- FormDiacritic `_possible_corrections`: the known diacritic siblings among
the generated edit candidates (edit distance 1, plus distance 2 when
configured), with the word itself added when it is in the dictionary. -/
def fdPossibleCorrections (lex : Lexicon) (dist : Nat) (word : Word) : List Word :=
  let raw := edits1 lex.letters word ++
    (if 1 < dist then edits2 lex.letters word else []) ++
    (if lex.known word then [word] else [])
  raw.filter (fun c => lex.known c && areDiacriticSiblings dist word c)

/-- FormDiacritic `is_error`: an unknown word with some sibling is an error; a
known word is an error when its most frequent sibling is a different word more
than 10 times as frequent (`best_freq > current_freq * 10` on usage
frequencies, embedded as the equivalent comparison of counts). -/
def fdIsError (lex : Lexicon) (dist : Nat) (word : Word) : Bool :=
  if ! lex.known word then ! (fdPossibleCorrections lex dist word).isEmpty
  else match fdPossibleCorrections lex dist word with
    | [] => false
    | v :: vs =>
      let best := pyMaxBy lex.freqOf v vs
      decide (best ≠ word) && decide (lex.freqOf word * 10 < lex.freqOf best)

/-- FormDiacritic `_fix_word`: strip punctuation and lowercase, take the most
frequent sibling; a known word is only swapped when that sibling is at least 10
times as frequent (note the non-strict threshold: the swap is suppressed only
when `best < current * 10`); the replacement is case-matched. -/
def fdFixWord (lex : Lexicon) (dist : Nat) (orig : Word) : Word :=
  let lowerWord := pyLowerStr (stripPunct orig)
  match fdPossibleCorrections lex dist lowerWord with
  | [] => orig
  | v :: vs =>
    let best := pyMaxBy lex.freqOf v vs
    if lex.known lowerWord && decide (lex.freqOf best < lex.freqOf lowerWord * 10) then orig
    else matchCase orig best

/-- FormDiacritic `correct`: rebuild the token stream, keeping whitespace and
punctuation tokens verbatim (`not token.strip() or not token[0].isalnum()`)
and fixing the word tokens. -/
def fdCorrect (lex : Lexicon) (dist : Nat) (s : List Char) : Word :=
  ((segmentize s).map (fun sg =>
    let t := sg.text
    if t.all Char.isWhitespace || ! pyIsAlnumChar (t.headD ' ') then t
    else fdFixWord lex dist t)).flatten

/-- FormDiacritic `get_error` (boolean; category FORME, name FDIA): scans the
words of the lowercased sentence. -/
def fdGetError (lex : Lexicon) (dist : Nat) (s : List Char) : Bool :=
  (wordsOf (pyLowerStr s)).any (fun w => fdIsError lex dist w)

/-- The detector contract seen by the Orchestrator: static category / name
metadata plus the two methods; `none` models a raised exception. -/
structure Detector where
  cat : String
  name : String
  getErr : String → Option (String × String × Bool)
  corr : String → Option String

/-- The Orchestrator's registry: the fifteen detectors instantiated by
`__init__`, in the `all_detectors` reporting order. -/
structure Orchestrator where
  fagl : Detector
  sred : Detector
  geuf : Detector
  fmaj : Detector
  fdia : Detector
  lins : Detector
  lmis : Detector
  lsub : Detector
  lord : Detector
  gacc : Detector
  gcon : Detector
  sord : Detector
  smis : Detector
  sins : Detector
  punc : Detector

/-- `self.all_detectors`, fixed at construction. -/
def Orchestrator.allDetectors (o : Orchestrator) : List Detector :=
  [o.fagl, o.sred, o.geuf, o.fmaj, o.fdia, o.lins, o.lmis, o.lsub, o.lord,
   o.gacc, o.gcon, o.sord, o.smis, o.sins, o.punc]

/-- The category/name filters: an empty list is no filter (Python truthiness of
the default `[]`). -/
def passesFilter (category names : List String) (d : Detector) : Bool :=
  (category.isEmpty || category.contains d.cat) &&
    (names.isEmpty || names.contains d.name)

/-- `Orchestrator.get_error`: one result per filter-passing detector, in
registry order; a raising detector contributes `(its category, its name,
False)` instead of aborting the call. -/
def Orchestrator.getError (o : Orchestrator) (s : String)
    (category names : List String) : List (String × String × Bool) :=
  o.allDetectors.foldl
    (fun results d =>
      if ! category.isEmpty && ! category.contains d.cat then results
      else if ! names.isEmpty && ! names.contains d.name then results
      else match d.getErr s with
        | some r => results ++ [r]
        | none => results ++ [(d.cat, d.name, false)])
    []

/-- The cascade step `apply_safe`: skip filtered-out detectors; check
`get_error` on the current buffer and correct only on a reported error; any
exception leaves the buffer unchanged. -/
def applySafe (category names : List String) (d : Detector) (text : String) : String :=
  if ! passesFilter category names d then text
  else match d.getErr text with
    | none => text
    | some r => if r.2.2 then (d.corr text).getD text else text

/-- `Orchestrator.correct`: the cascaded pipeline, written as in the source as
the hardcoded phase sequence (structure cleaning, euphonics and form, the
orthography loop, grammar, the deep-syntax loop, punctuation). -/
def Orchestrator.correct (o : Orchestrator) (s : String)
    (category names : List String) : String :=
  let t1 := applySafe category names o.fagl s
  let t2 := applySafe category names o.sred t1
  let t3 := applySafe category names o.geuf t2
  let t4 := applySafe category names o.fmaj t3
  let t5 := [o.fdia, o.lins, o.lmis, o.lsub, o.lord].foldl
    (fun t d => applySafe category names d t) t4
  let t6 := applySafe category names o.gacc t5
  let t7 := applySafe category names o.gcon t6
  let t8 := [o.sord, o.smis, o.sins].foldl
    (fun t d => applySafe category names d t) t7
  applySafe category names o.punc t8

/-- `Orchestrator.get_suggestions`: one record per filter-passing detector, all
evaluated against the original sentence; no error (or any exception) yields the
original sentence as the suggestion. -/
def Orchestrator.getSuggestions (o : Orchestrator) (s : String)
    (category names : List String) : List (String × String × Bool × String) :=
  o.allDetectors.foldl
    (fun results d =>
      if ! category.isEmpty && ! category.contains d.cat then results
      else if ! names.isEmpty && ! names.contains d.name then results
      else match d.getErr s with
        | some r =>
          if r.2.2 then
            match d.corr s with
            | some t => results ++ [(r.1, r.2.1, r.2.2, t)]
            | none => results ++ [(d.cat, d.name, false, s)]
          else results ++ [(r.1, r.2.1, r.2.2, s)]
        | none => results ++ [(d.cat, d.name, false, s)])
    []

/-- What `get_error` records for one detector: its result, or the no-error
triple when it raises. -/
def detectorResult (s : String) (d : Detector) : String × String × Bool :=
  (d.getErr s).getD (d.cat, d.name, false)

/-- What `get_suggestions` records for one detector, as a function of the
original sentence only. -/
def suggestFor (s : String) (d : Detector) : String × String × Bool × String :=
  match d.getErr s with
  | some r =>
    if r.2.2 then
      match d.corr s with
      | some t => (r.1, r.2.1, r.2.2, t)
      | none => (d.cat, d.name, false, s)
    else (r.1, r.2.1, r.2.2, s)
  | none => (d.cat, d.name, false, s)

/-- The divergence window of FormDiacritic on a known word: its most frequent
diacritic sibling is a different word of exactly 10 times its usage frequency
(detection's strict `>` fails, correction's non-strict threshold fires). -/
def fdTenfoldEdge (lex : Lexicon) (dist : Nat) (word : Word) : Bool :=
  lex.known word &&
    match fdPossibleCorrections lex dist word with
    | [] => false
    | v :: vs =>
      let best := pyMaxBy lex.freqOf v vs
      decide (best ≠ word) && decide (lex.freqOf best = lex.freqOf word * 10)

/-- Every run produced by segmentation is well-formed: nonempty, and
homogeneously word material or non-word material. -/
def SegOK : Seg → Prop
  | .word w => w ≠ [] ∧ ∀ c ∈ w, isWordChar c = true
  | .gap g => g ≠ [] ∧ ∀ c ∈ g, isWordChar c = false

/-- A concrete dictionary for the diacritic counterexamples: the accentless
form has count 1 and its diacritic sibling exactly 10 times that; the total
count is 16, a power of two, on which float usage frequencies are exact. -/
def lexFr : Lexicon :=
  Lexicon.mk [("francais".toList, 1), ("français".toList, 10), ("bonjour".toList, 5)]

/-- A variant of lexFr whose sibling is strictly more than 10 times as
frequent, for exercising the detection branch. -/
def lexFr11 : Lexicon :=
  Lexicon.mk [("francais".toList, 1), ("français".toList, 11), ("bonjour".toList, 4)]

/-- A one-word dictionary for no-op witnesses. -/
def lexDe : Lexicon := Lexicon.mk [("de".toList, 5)]

/-- A one-word dictionary for the insertion/omission examples. -/
def lexCommune : Lexicon := Lexicon.mk [("commune".toList, 3)]

/-- A one-word dictionary for the transposition example. -/
def lexFromage : Lexicon := Lexicon.mk [("fromage".toList, 7)]

/-- A validator that approves every token (for witnesses). -/
def vTrue : Word → Bool := fun _ => true

/-- A validator that rejects every token (for counterexamples). -/
def vFalse : Word → Bool := fun _ => false

theorem segmentize_cons_eq (c : Char) (cs : List Char) :
    segmentize (c :: cs) =
      if isWordChar c then
        Seg.word ((c :: cs).takeWhile isWordChar) ::
          segmentize ((c :: cs).dropWhile isWordChar)
      else
        Seg.gap ((c :: cs).takeWhile (fun x => ! isWordChar x)) ::
          segmentize ((c :: cs).dropWhile (fun x => ! isWordChar x)) := by
  induction cs generalizing c with
  | nil =>
    cases h : isWordChar c with
    | true => simp [segmentize, segCons, h, List.takeWhile_cons, List.dropWhile_cons]
    | false => simp [segmentize, segCons, h, List.takeWhile_cons, List.dropWhile_cons]
  | cons d cs' ih =>
    have hstep : segmentize (c :: d :: cs') = segCons c (segmentize (d :: cs')) := rfl
    rw [hstep, ih d]
    cases h : isWordChar c with
    | true =>
      cases h' : isWordChar d with
      | true => simp [segCons, h, h', List.takeWhile_cons, List.dropWhile_cons]
      | false =>
        simp [segCons, h, h', List.takeWhile_cons, List.dropWhile_cons]
        conv_rhs => rw [ih d, if_neg (by simp [h'])]
        simp [h', List.takeWhile_cons, List.dropWhile_cons]
    | false =>
      cases h' : isWordChar d with
      | true =>
        simp [segCons, h, h', List.takeWhile_cons, List.dropWhile_cons]
        conv_rhs => rw [ih d, if_pos h']
        simp [h', List.takeWhile_cons, List.dropWhile_cons]
      | false => simp [segCons, h, h', List.takeWhile_cons, List.dropWhile_cons]

theorem segmentize_ind {P : List Char → Prop} (nil : P [])
    (word : ∀ c cs, isWordChar c = true →
      P ((c :: cs).dropWhile isWordChar) → P (c :: cs))
    (gap : ∀ c cs, isWordChar c = false →
      P ((c :: cs).dropWhile (fun x => ! isWordChar x)) → P (c :: cs)) :
    ∀ s, P s := by
  have key : ∀ n (s : List Char), s.length ≤ n → P s := by
    intro n
    induction n with
    | zero =>
      intro s hs
      have hnil : s = [] := List.eq_nil_of_length_eq_zero (Nat.le_zero.mp hs)
      rw [hnil]
      exact nil
    | succ n ih =>
      intro s hs
      cases s with
      | nil => exact nil
      | cons c cs =>
        have h3 : cs.length ≤ n := by
          simp only [List.length_cons] at hs
          omega
        cases h : isWordChar c with
        | true =>
          apply word c cs h
          apply ih
          have h1 : (c :: cs).dropWhile isWordChar = cs.dropWhile isWordChar := by
            rw [List.dropWhile_cons, if_pos h]
          rw [h1]
          exact le_trans (List.dropWhile_sublist _).length_le h3
        | false =>
          apply gap c cs h
          apply ih
          have h1 : (c :: cs).dropWhile (fun x => ! isWordChar x) =
              cs.dropWhile (fun x => ! isWordChar x) := by
            rw [List.dropWhile_cons, if_pos (by rw [h]; rfl)]
          rw [h1]
          exact le_trans (List.dropWhile_sublist _).length_le h3
  exact fun s => key s.length s (le_refl _)

theorem segmentize_join (s : List Char) : joinSegs (segmentize s) = s := by
  induction s using segmentize_ind with
  | nil => rfl
  | word c cs h ih =>
    rw [segmentize_cons_eq, if_pos h]
    simp only [joinSegs, List.map_cons, List.flatten_cons, Seg.text]
    rw [joinSegs] at ih
    rw [ih, List.takeWhile_append_dropWhile]
  | gap c cs h ih =>
    rw [segmentize_cons_eq, if_neg (by simp [h])]
    simp only [joinSegs, List.map_cons, List.flatten_cons, Seg.text]
    rw [joinSegs] at ih
    rw [ih, List.takeWhile_append_dropWhile]

theorem segmentize_ok (s : List Char) : ∀ sg ∈ segmentize s, SegOK sg := by
  induction s using segmentize_ind with
  | nil => intro sg h; simp [segmentize] at h
  | word c cs h ih =>
    intro sg hsg
    rw [segmentize_cons_eq, if_pos h] at hsg
    rcases List.mem_cons.mp hsg with rfl | hsg
    · refine ⟨?_, fun x hx => List.mem_takeWhile_imp hx⟩
      simp [List.takeWhile_cons, h]
    · exact ih sg hsg
  | gap c cs h ih =>
    intro sg hsg
    rw [segmentize_cons_eq, if_neg (by simp [h])] at hsg
    rcases List.mem_cons.mp hsg with rfl | hsg
    · constructor
      · simp [List.takeWhile_cons, h]
      · intro x hx
        have := List.mem_takeWhile_imp hx
        simpa using this
    · exact ih sg hsg

theorem applyReversed_cons (s : Word) (m : Nat × Nat × Word)
    (ms : List (Nat × Nat × Word)) :
    applyReversed s (m :: ms) = splice (applyReversed s ms) m := by
  simp [applyReversed, List.reverse_cons, List.foldl_append]

theorem applyReversed_matches (pw : Word → Option Word) :
    ∀ (segs : List Seg) (p : Nat) (s : Word),
      (∀ sg ∈ segs, SegOK sg) →
      s.drop p = joinSegs segs →
      applyReversed s ((matchesAux p segs).filterMap
        (fun m => (pw m.2).map (fun r => (m.1, m.1 + m.2.length, r)))) =
      s.take p ++ ((segs.map (fun sg => match sg with
        | Seg.word w => (pw w).getD w
        | Seg.gap g => g)).flatten) := by
  intro segs
  induction segs with
  | nil =>
    intro p s _ hdrop
    simp only [matchesAux, List.filterMap_nil, applyReversed, List.reverse_nil,
      List.foldl_nil, List.map_nil, List.flatten_nil, List.append_nil]
    have hle : s.length ≤ p := by
      have hnil : s.drop p = [] := by rw [hdrop]; rfl
      exact (List.drop_eq_nil_iff).mp hnil
    rw [List.take_of_length_le hle]
  | cons sg rest ih =>
    cases sg with
    | gap g =>
      intro p s hok hdrop
      have hdrop' : s.drop (p + g.length) = joinSegs rest := by
        rw [← List.drop_drop, hdrop]
        simp only [joinSegs, List.map_cons, List.flatten_cons, Seg.text]
        exact List.drop_left g (joinSegs rest)
      have htake : s.take (p + g.length) = s.take p ++ g := by
        rw [List.take_add, hdrop]
        simp only [joinSegs, List.map_cons, List.flatten_cons, Seg.text]
        rw [List.take_left]
      rw [matchesAux, ih (p + g.length) s (fun x hx => hok x (List.mem_cons_of_mem _ hx)) hdrop',
        htake]
      simp
    | word w =>
      intro p s hok hdrop
      have hwok := hok (Seg.word w) (List.mem_cons_self _ _)
      have hwne : w ≠ [] := hwok.1
      have hdropj : s.drop p = w ++ joinSegs rest := by
        simpa [joinSegs, Seg.text] using hdrop
      have hplen : p ≤ s.length := by
        by_contra hlt
        push_neg at hlt
        have : s.drop p = [] := List.drop_eq_nil_iff.mpr (le_of_lt hlt)
        rw [hdropj] at this
        exact hwne (List.append_eq_nil.mp this).1
      have hlen : p + w.length ≤ s.length := by
        have := congrArg List.length hdropj
        rw [List.length_drop, List.length_append] at this
        omega
      have hdrop' : s.drop (p + w.length) = joinSegs rest := by
        rw [← List.drop_drop, hdropj]
        exact List.drop_left w (joinSegs rest)
      have htake : s.take (p + w.length) = s.take p ++ w := by
        rw [List.take_add, hdropj, List.take_left]
      have ihres := ih (p + w.length) s
        (fun x hx => hok x (List.mem_cons_of_mem _ hx)) hdrop'
      rw [matchesAux]
      cases hpw : pw w with
      | none =>
        rw [List.filterMap_cons]
        simp only [hpw, Option.map_none']
        rw [ihres, htake]
        simp [hpw]
      | some r =>
        rw [List.filterMap_cons]
        simp only [hpw, Option.map_some']
        rw [applyReversed_cons, ihres, htake]
        have hlen1 : (s.take p).length = p := by
          rw [List.length_take]
          exact min_eq_left hplen
        have hlen2 : ((s.take p) ++ w).length = p + w.length := by
          rw [List.length_append, hlen1]
        set Jf := (List.map (fun sg => match sg with
          | Seg.word w => (pw w).getD w
          | Seg.gap g => g) rest).flatten with hJ
        simp only [splice]
        have e1 : List.take p (List.take p s ++ w ++ Jf) = List.take p s := by
          rw [List.append_assoc]
          exact List.take_left' hlen1
        have e2 : List.drop (p + w.length) (List.take p s ++ w ++ Jf) = Jf :=
          List.drop_left' hlen2
        rw [e1, e2]
        simp [hpw]

theorem spliceCorrect_eq_rejoin (pw : Word → Option Word) (s : List Char) :
    spliceCorrect pw s = rejoinWith (fun w => (pw w).getD w) s := by
  have h := applyReversed_matches pw (segmentize s) 0 s (segmentize_ok s)
    ((segmentize_join s).symm)
  simpa [spliceCorrect, replacementsOf, matchesOf, rejoinWith] using h

theorem matchesAux_snd (segs : List Seg) :
    ∀ p, (matchesAux p segs).map (fun m => m.2) = segWords segs := by
  induction segs with
  | nil => intro p; simp [matchesAux, segWords]
  | cons sg rest ih =>
    intro p
    cases sg with
    | gap g => simp [matchesAux, segWords, List.filterMap_cons, ih]
    | word w => simp [matchesAux, segWords, List.filterMap_cons, ih]

theorem wordsOf_eq (s : List Char) : wordsOf s = segWords (segmentize s) := by
  rw [wordsOf, matchesOf, matchesAux_snd]

theorem mem_segWords {w : Word} {segs : List Seg} :
    w ∈ segWords segs ↔ Seg.word w ∈ segs := by
  simp only [segWords, List.mem_filterMap]
  constructor
  · rintro ⟨sg, hsg, hmap⟩
    cases sg with
    | word x => simp at hmap; subst hmap; exact hsg
    | gap g => simp at hmap
  · intro h
    exact ⟨Seg.word w, h, rfl⟩

theorem rejoinWith_congr (f g : Word → Word) (s : List Char)
    (h : ∀ w ∈ segWords (segmentize s), f w = g w) :
    rejoinWith f s = rejoinWith g s := by
  rw [rejoinWith, rejoinWith]
  congr 1
  apply List.map_congr_left
  intro sg hsg
  cases sg with
  | word w => exact h w (mem_segWords.mpr hsg)
  | gap g => rfl

theorem rejoinWith_id (f : Word → Word) (s : List Char)
    (h : ∀ w ∈ segWords (segmentize s), f w = w) : rejoinWith f s = s := by
  have hmap : ((segmentize s).map (fun sg => match sg with
      | Seg.word w => f w
      | Seg.gap g => g)) = (segmentize s).map Seg.text := by
    apply List.map_congr_left
    intro sg hsg
    cases sg with
    | word w => exact h w (mem_segWords.mpr hsg)
    | gap g => rfl
  rw [rejoinWith, hmap]
  exact segmentize_join s

theorem pyMaxBy_mem {β : Type} [LinearOrder β] (f : Word → β) :
    ∀ (l : List Word) (b : Word), pyMaxBy f b l ∈ b :: l := by
  intro l
  induction l with
  | nil => intro b; simp [pyMaxBy]
  | cons x xs ih =>
    intro b
    rw [pyMaxBy]
    by_cases h : f b < f x
    · rw [if_pos h]
      exact List.mem_cons_of_mem b (ih x)
    · rw [if_neg h]
      rcases List.mem_cons.mp (ih b) with h1 | h1
      · rw [h1]
        exact List.mem_cons_self _ _
      · exact List.mem_cons_of_mem b (List.mem_cons_of_mem x h1)

theorem pyMaxBy_le {β : Type} [LinearOrder β] (f : Word → β) :
    ∀ (l : List Word) (b : Word), ∀ y ∈ b :: l, f y ≤ f (pyMaxBy f b l) := by
  intro l
  induction l with
  | nil =>
    intro b y hy
    rcases List.mem_cons.mp hy with h | h
    · rw [h]
      simp [pyMaxBy]
    · simp at h
  | cons x xs ih =>
    intro b y hy
    rw [pyMaxBy]
    by_cases h : f b < f x
    · rw [if_pos h]
      rcases List.mem_cons.mp hy with h1 | h1
      · calc f y = f b := by rw [h1]
          _ ≤ f x := le_of_lt h
          _ ≤ f (pyMaxBy f x xs) := ih x x (List.mem_cons_self x xs)
      · exact ih x y h1
    · rw [if_neg h]
      rcases List.mem_cons.mp hy with h1 | h1
      · rw [h1]
        exact ih b b (List.mem_cons_self b xs)
      · rcases List.mem_cons.mp h1 with h2 | h2
        · rw [h2]
          exact le_trans (not_lt.mp h) (ih b b (List.mem_cons_self b xs))
        · exact ih b y (List.mem_cons_of_mem b h2)

theorem matchesAux_ge (segs : List Seg) :
    ∀ p, ∀ m ∈ matchesAux p segs, p ≤ m.1 := by
  induction segs with
  | nil => intro p m hm; simp [matchesAux] at hm
  | cons sg rest ih =>
    intro p m hm
    cases sg with
    | gap g =>
      rw [matchesAux] at hm
      exact le_trans (Nat.le_add_right _ _) (ih (p + g.length) m hm)
    | word w =>
      rw [matchesAux] at hm
      rcases List.mem_cons.mp hm with rfl | hm'
      · exact le_refl _
      · exact le_trans (Nat.le_add_right _ _) (ih (p + w.length) m hm')

theorem matchesAux_sorted (segs : List Seg) (hok : ∀ sg ∈ segs, SegOK sg) :
    ∀ p, List.Pairwise (fun a b => a < b)
      ((matchesAux p segs).map (fun m => m.1)) := by
  induction segs with
  | nil => intro p; simp [matchesAux]
  | cons sg rest ih =>
    intro p
    cases sg with
    | gap g =>
      rw [matchesAux]
      exact ih (fun x hx => hok x (List.mem_cons_of_mem _ hx)) (p + g.length)
    | word w =>
      rw [matchesAux]
      simp only [List.map_cons]
      constructor
      · intro q hq
        simp only [List.mem_map] at hq
        obtain ⟨m, hm, rfl⟩ := hq
        have h1 : p + w.length ≤ m.1 := matchesAux_ge rest (p + w.length) m hm
        have h2 : w ≠ [] := (hok (Seg.word w) (List.mem_cons_self _ _)).1
        have h3 : 0 < w.length := List.length_pos.mpr h2
        omega
      · exact ih (fun x hx => hok x (List.mem_cons_of_mem _ hx)) (p + w.length)

theorem replacements_starts_sublist (pw : Word → Option Word) :
    ∀ (l : List (Nat × Word)),
      List.Sublist
        ((l.filterMap (fun m => (pw m.2).map
          (fun r => (m.1, m.1 + m.2.length, r)))).map (fun m => m.1))
        (l.map (fun m => m.1)) := by
  intro l
  induction l with
  | nil => simp
  | cons m rest ih =>
    rw [List.filterMap_cons]
    cases hpw : pw m.2 with
    | none =>
      simp only [Option.map_none', List.map_cons]
      exact List.Sublist.cons _ ih
    | some r =>
      simp only [Option.map_some', List.map_cons]
      exact List.Sublist.cons₂ _ ih

theorem replacementsOf_sorted (pw : Word → Option Word) (s : List Char) :
    List.Pairwise (fun a b => a < b)
      ((replacementsOf pw s).map (fun m => m.1)) := by
  have h1 := matchesAux_sorted (segmentize s) (segmentize_ok s) 0
  exact List.Pairwise.sublist (replacements_starts_sublist pw (matchesOf s)) h1

theorem caseTable_facts :
    ∀ p ∈ caseTable, p.1 ≠ p.2 ∧ isWordChar p.1 = true ∧ isWordChar p.2 = true := by
  decide

theorem isWordChar_pyLowerChar (c : Char) :
    isWordChar (pyLowerChar c) = isWordChar c := by
  rw [pyLowerChar]
  cases hf : caseTable.find? (fun p => p.1 == c) with
  | none => simp
  | some p =>
    simp only [Option.map_some', Option.getD_some]
    have hp : p ∈ caseTable := List.mem_of_find?_eq_some hf
    have hc : p.1 = c := by
      have h1 := List.find?_some hf
      simpa using h1
    rw [← hc, (caseTable_facts p hp).2.1, (caseTable_facts p hp).2.2]

theorem isUpperChar_of_lower_fix {c : Char} (h : pyLowerChar c = c) :
    isUpperChar c = false := by
  by_contra hne
  have hu : isUpperChar c = true := by
    cases h2 : isUpperChar c
    · exact absurd h2 hne
    · rfl
  rw [isUpperChar] at hu
  obtain ⟨p, hp⟩ := Option.isSome_iff_exists.mp hu
  have hmem : p ∈ caseTable := List.mem_of_find?_eq_some hp
  have hc : p.1 = c := by
    have h1 := List.find?_some hp
    simpa using h1
  have hlow : pyLowerChar c = p.2 := by
    rw [pyLowerChar, hp]
    rfl
  have hcp : c = p.2 := by rw [← h, hlow]
  exact (caseTable_facts p hmem).1 (hc.trans hcp)

theorem map_eq_self_mem {f : Char → Char} :
    ∀ {w : Word}, w.map f = w → ∀ c ∈ w, f c = c := by
  intro w
  induction w with
  | nil => intro _ c hc; simp at hc
  | cons a l ih =>
    intro h c hc
    rw [List.map_cons, List.cons_eq_cons] at h
    rcases List.mem_cons.mp hc with rfl | hc'
    · exact h.1
    · exact ih h.2 c hc'

theorem titleOK_all_uncased :
    ∀ (w : Word), (∀ c ∈ w, isUpperChar c = false) →
      pyTitleOK false w = true → ∀ c ∈ w, isCasedChar c = false := by
  intro w
  induction w with
  | nil => intro _ _ c hc; simp at hc
  | cons a l ih =>
    intro hup ht c hc
    rw [pyTitleOK] at ht
    rw [hup a (List.mem_cons_self _ _), if_neg Bool.false_ne_true] at ht
    cases hl : isLowerChar a with
    | true => rw [hl] at ht; simp at ht
    | false =>
      rw [hl, if_neg Bool.false_ne_true] at ht
      rcases List.mem_cons.mp hc with rfl | hc'
      · rw [isCasedChar, hup c (List.mem_cons_self _ _), hl]
        rfl
      · exact ih (fun x hx => hup x (List.mem_cons_of_mem _ hx)) ht c hc'

theorem matchCase_of_lower_fix {w : Word} (h : pyLowerStr w = w) (x : Word) :
    matchCase w x = x := by
  have hup : ∀ c ∈ w, isUpperChar c = false := by
    intro c hc
    exact isUpperChar_of_lower_fix (map_eq_self_mem h c hc)
  have h1 : pyIsUpper w = false := by
    rw [pyIsUpper]
    cases hany : w.any isCasedChar with
    | false => rfl
    | true =>
      obtain ⟨c, hc, hcase⟩ := List.any_eq_true.mp hany
      have hall : w.all (fun c => ! isCasedChar c || isUpperChar c) = false := by
        rw [List.all_eq_false]
        refine ⟨c, hc, ?_⟩
        rw [hcase, hup c hc]
        simp
      rw [hall]
      rfl
  have h2 : pyIsTitle w = false := by
    rw [pyIsTitle]
    cases hany : w.any isCasedChar with
    | false => rfl
    | true =>
      cases ht : pyTitleOK false w with
      | false => simp
      | true =>
        obtain ⟨c, hc, hcase⟩ := List.any_eq_true.mp hany
        have := titleOK_all_uncased w hup ht c hc
        rw [this] at hcase
        exact absurd hcase (by simp)
  rw [matchCase, h1, h2]
  simp

theorem segmentize_pyLowerStr (s : List Char) :
    segmentize (pyLowerStr s) = (segmentize s).map (fun sg => match sg with
      | Seg.word w => Seg.word (pyLowerStr w)
      | Seg.gap g => Seg.gap (pyLowerStr g)) := by
  induction s using segmentize_ind with
  | nil => simp [segmentize, pyLowerStr]
  | word c cs h ih =>
    rw [pyLowerStr, List.map_cons, segmentize_cons_eq,
      if_pos (by rw [isWordChar_pyLowerChar c]; exact h)]
    conv_rhs => rw [segmentize_cons_eq, if_pos h]
    rw [List.map_cons]
    congr 1
    · rw [← List.map_cons pyLowerChar c cs, List.takeWhile_map]
      simp only [Function.comp_def, isWordChar_pyLowerChar]
      rfl
    · rw [← List.map_cons pyLowerChar c cs, List.dropWhile_map]
      simp only [Function.comp_def, isWordChar_pyLowerChar]
      exact ih
  | gap c cs h ih =>
    rw [pyLowerStr, List.map_cons, segmentize_cons_eq,
      if_neg (by rw [isWordChar_pyLowerChar c]; simp [h])]
    conv_rhs => rw [segmentize_cons_eq, if_neg (by simp [h])]
    rw [List.map_cons]
    congr 1
    · rw [← List.map_cons pyLowerChar c cs, List.takeWhile_map]
      simp only [Function.comp_def, isWordChar_pyLowerChar]
      rfl
    · rw [← List.map_cons pyLowerChar c cs, List.dropWhile_map]
      simp only [Function.comp_def, isWordChar_pyLowerChar]
      exact ih

theorem segWords_map_lower (segs : List Seg) :
    segWords (segs.map (fun sg => match sg with
      | Seg.word w => Seg.word (pyLowerStr w)
      | Seg.gap g => Seg.gap (pyLowerStr g))) = (segWords segs).map pyLowerStr := by
  induction segs with
  | nil => simp [segWords]
  | cons sg rest ih =>
    cases sg with
    | word w => simp [segWords, List.filterMap_cons] at ih ⊢; exact ih
    | gap g => simp [segWords, List.filterMap_cons] at ih ⊢; exact ih

theorem wordsOf_lower (s : List Char) :
    wordsOf (pyLowerStr s) = (wordsOf s).map pyLowerStr := by
  rw [wordsOf_eq, wordsOf_eq, segmentize_pyLowerStr, segWords_map_lower]

theorem punct_wordChar : ∀ p ∈ punctChars, isWordChar p = true → p = '_' := by
  decide

theorem wordChar_not_punct {c : Char} (h1 : isWordChar c = true) (h2 : c ≠ '_') :
    punctChars.contains c = false := by
  cases hc : punctChars.contains c with
  | false => rfl
  | true =>
    have hm : c ∈ punctChars := List.mem_of_elem_eq_true hc
    exact absurd (punct_wordChar c hm h1) h2

theorem stripPunct_of_wordchars {w : Word} (h1 : ∀ c ∈ w, isWordChar c = true)
    (h2 : ∀ c ∈ w, c ≠ '_') : stripPunct w = w := by
  rw [stripPunct]
  apply List.filter_eq_self.mpr
  intro c hc
  rw [wordChar_not_punct (h1 c hc) (h2 c hc)]
  rfl

theorem not_alnum_of_not_wordChar {c : Char} (h : isWordChar c = false) :
    pyIsAlnumChar c = false := by
  rw [isWordChar] at h
  cases ha : pyIsAlnumChar c with
  | false => rfl
  | true => rw [ha] at h; simp at h

theorem mem_of_mem_seg {c : Char} {sg : Seg} {s : List Char}
    (hsg : sg ∈ segmentize s) (hc : c ∈ sg.text) : c ∈ s := by
  have hj := segmentize_join s
  rw [← hj, joinSegs]
  exact List.mem_flatten.mpr ⟨sg.text, List.mem_map_of_mem _ hsg, hc⟩

theorem freqOf_pos (lex : Lexicon) (hWF : lex.WF) (w : Word)
    (h : lex.known w = true) : 1 ≤ lex.freqOf w := by
  rw [Lexicon.known] at h
  obtain ⟨p, hp⟩ := Option.isSome_iff_exists.mp h
  have hmem := List.mem_of_find?_eq_some hp
  have hfreq : lex.freqOf w = p.2 := by
    rw [Lexicon.freqOf, hp]
    rfl
  rw [hfreq]
  exact hWF p hmem

theorem lm_noop (v : Word → Bool) (lex : Lexicon) (dist : Nat) (s : List Char)
    (h : lmGetError v lex dist s = false) : lmCorrect v lex dist s = s := by
  rw [lmCorrect, spliceCorrect_eq_rejoin]
  apply rejoinWith_id
  intro w hw
  have hw' : w ∈ wordsOf s := by rw [wordsOf_eq]; exact hw
  have hfalse : (! v w && lmIsError lex dist w) = false := by
    have h1 := List.any_eq_false.mp h w hw'
    simpa using h1
  rw [lmPerWord]
  by_cases hv : v w = true
  · rw [if_pos hv]
    rfl
  · have hv' : v w = false := Bool.not_eq_true _ ▸ eq_false_of_ne_true hv
    rw [hv'] at hfalse
    simp only [Bool.not_false, Bool.true_and] at hfalse
    rw [if_neg (by simp [hv'])]
    by_cases hk : lex.known (pyLowerStr w) = true
    · rw [if_pos hk]
      rfl
    · rw [if_neg hk]
      have hnone : lmGetMissingCorrection lex dist (pyLowerStr w) = none := by
        rw [lmIsError] at hfalse
        exact Option.not_isSome_iff_eq_none.mp (by simp [hfalse])
      rw [hnone]
      rfl

theorem li_noop (v : Word → Bool) (lex : Lexicon) (dist : Nat) (s : List Char)
    (h : liGetError v lex dist s = false) : liCorrect v lex dist s = s := by
  rw [liCorrect, spliceCorrect_eq_rejoin]
  apply rejoinWith_id
  intro w hw
  have hw' : w ∈ wordsOf s := by rw [wordsOf_eq]; exact hw
  have hfalse : (! v w && ! lex.known (pyLowerStr w) &&
      (liGetCorrection lex dist w).isSome) = false := by
    have h1 := List.any_eq_false.mp h w hw'
    simpa using h1
  rw [liPerWord]
  by_cases hv : v w = true
  · rw [if_pos hv]
    rfl
  · have hv' : v w = false := Bool.not_eq_true _ ▸ eq_false_of_ne_true hv
    rw [hv'] at hfalse
    rw [if_neg (by simp [hv'])]
    by_cases hk : lex.known (pyLowerStr w) = true
    · rw [if_pos hk]
      rfl
    · have hk' : lex.known (pyLowerStr w) = false := Bool.not_eq_true _ ▸ eq_false_of_ne_true hk
      rw [hk'] at hfalse
      simp only [Bool.not_false, Bool.true_and, Bool.and_self] at hfalse
      rw [if_neg hk]
      have hnone : liGetCorrection lex dist w = none :=
        Option.not_isSome_iff_eq_none.mp (by simp [hfalse])
      rw [hnone]
      rfl

theorem ls_noop (v : Word → Bool) (lex : Lexicon) (dist : Nat) (s : List Char)
    (h : lsGetError v lex dist s = false) : lsCorrect v lex dist s = s := by
  rw [lsCorrect, spliceCorrect_eq_rejoin]
  apply rejoinWith_id
  intro w hw
  have hw' : w ∈ wordsOf s := by rw [wordsOf_eq]; exact hw
  have hfalse : (! v w && ! lex.known (pyLowerStr w) &&
      (lsGetSubstitutionCorrection lex dist w).isSome) = false := by
    have h1 := List.any_eq_false.mp h w hw'
    simpa using h1
  rw [lsPerWord]
  by_cases hv : v w = true
  · rw [if_pos hv]
    rfl
  · have hv' : v w = false := Bool.not_eq_true _ ▸ eq_false_of_ne_true hv
    rw [hv'] at hfalse
    rw [if_neg (by simp [hv'])]
    by_cases hk : lex.known (pyLowerStr w) = true
    · rw [if_pos hk]
      rfl
    · have hk' : lex.known (pyLowerStr w) = false := Bool.not_eq_true _ ▸ eq_false_of_ne_true hk
      rw [hk'] at hfalse
      simp only [Bool.not_false, Bool.true_and, Bool.and_self] at hfalse
      rw [if_neg hk]
      have hnone : lsGetSubstitutionCorrection lex dist w = none :=
        Option.not_isSome_iff_eq_none.mp (by simp [hfalse])
      rw [hnone]
      rfl

theorem lo_noop (v : Word → Bool) (lex : Lexicon) (s : List Char)
    (h : loGetError v lex s = false) : loCorrect v lex s = s := by
  rw [loCorrect, spliceCorrect_eq_rejoin]
  apply rejoinWith_id
  intro w hw
  have hw' : w ∈ wordsOf s := by rw [wordsOf_eq]; exact hw
  have hfalse : (! v w && (loGetOrderCorrection lex (pyLowerStr w)).isSome) = false := by
    have h1 := List.any_eq_false.mp h w hw'
    simpa using h1
  rw [loPerWord]
  by_cases hv : v w = true
  · rw [if_pos hv]
    rfl
  · have hv' : v w = false := Bool.not_eq_true _ ▸ eq_false_of_ne_true hv
    rw [hv'] at hfalse
    simp only [Bool.not_false, Bool.true_and] at hfalse
    rw [if_neg (by simp [hv'])]
    have hnone : loGetOrderCorrection lex (pyLowerStr w) = none :=
      Option.not_isSome_iff_eq_none.mp (by simp [hfalse])
    rw [hnone]
    rfl

theorem fdFixWord_no_change (lex : Lexicon) (dist : Nat) (hWF : lex.WF) (w : Word)
    (hstrip : stripPunct w = w)
    (herr : fdIsError lex dist (pyLowerStr w) = false)
    (hedge : fdTenfoldEdge lex dist (pyLowerStr w) = false) :
    fdFixWord lex dist w = w := by
  rw [fdFixWord, hstrip]
  cases hp : fdPossibleCorrections lex dist (pyLowerStr w) with
  | nil => rfl
  | cons v vs =>
    cases hk : lex.known (pyLowerStr w) with
    | false =>
      exfalso
      rw [fdIsError, hk, hp] at herr
      simp at herr
    | true =>
      rw [fdIsError, hk] at herr
      simp only [Bool.not_true] at herr
      rw [if_neg Bool.false_ne_true, hp] at herr
      rw [fdTenfoldEdge, hk, hp] at hedge
      simp only [Bool.true_and] at hedge
      have herr' : ¬ (pyMaxBy lex.freqOf v vs ≠ pyLowerStr w ∧
          lex.freqOf (pyLowerStr w) * 10 < lex.freqOf (pyMaxBy lex.freqOf v vs)) := by
        simpa using herr
      have hedge' : ¬ (pyMaxBy lex.freqOf v vs ≠ pyLowerStr w ∧
          lex.freqOf (pyMaxBy lex.freqOf v vs) = lex.freqOf (pyLowerStr w) * 10) := by
        simpa using hedge
      have hlt : lex.freqOf (pyMaxBy lex.freqOf v vs) <
          lex.freqOf (pyLowerStr w) * 10 := by
        by_cases hbw : pyMaxBy lex.freqOf v vs = pyLowerStr w
        · rw [hbw]
          have hpos := freqOf_pos lex hWF (pyLowerStr w) hk
          omega
        · have h1 : ¬ (lex.freqOf (pyLowerStr w) * 10 <
              lex.freqOf (pyMaxBy lex.freqOf v vs)) := fun hcon => herr' ⟨hbw, hcon⟩
          have h2 : lex.freqOf (pyMaxBy lex.freqOf v vs) ≠
              lex.freqOf (pyLowerStr w) * 10 := fun hcon => hedge' ⟨hbw, hcon⟩
          exact lt_of_le_of_ne (not_lt.mp h1) h2
      simp [hlt]

theorem fd_noop (lex : Lexicon) (dist : Nat) (s : List Char) (hWF : lex.WF)
    (hund : ∀ c ∈ s, c ≠ '_')
    (herr : fdGetError lex dist s = false)
    (hedge : ∀ w ∈ wordsOf (pyLowerStr s), fdTenfoldEdge lex dist w = false) :
    fdCorrect lex dist s = s := by
  rw [fdCorrect]
  have hpoint : ∀ sg ∈ segmentize s,
      (fun sg : Seg =>
        let t := sg.text
        if t.all Char.isWhitespace || ! pyIsAlnumChar (t.headD ' ') then t
        else fdFixWord lex dist t) sg = Seg.text sg := by
    intro sg hsg
    show (if sg.text.all Char.isWhitespace || ! pyIsAlnumChar (sg.text.headD ' ')
      then sg.text else fdFixWord lex dist sg.text) = sg.text
    by_cases hcond : (sg.text.all Char.isWhitespace ||
        ! pyIsAlnumChar (sg.text.headD ' ')) = true
    · rw [if_pos hcond]
    · rw [if_neg hcond]
      cases sg with
      | gap g =>
        exfalso
        apply hcond
        obtain ⟨hne, hall⟩ := segmentize_ok s _ hsg
        obtain ⟨c, cs, rfl⟩ := List.exists_cons_of_ne_nil hne
        simp only [Seg.text, List.headD_cons]
        rw [not_alnum_of_not_wordChar (hall c (List.mem_cons_self _ _))]
        simp
      | word w =>
        obtain ⟨hne, hall⟩ := segmentize_ok s _ hsg
        simp only [Seg.text]
        have hwmem : pyLowerStr w ∈ wordsOf (pyLowerStr s) := by
          rw [wordsOf_lower]
          exact List.mem_map_of_mem _ (by rw [wordsOf_eq]; exact mem_segWords.mpr hsg)
        apply fdFixWord_no_change lex dist hWF w
        · exact stripPunct_of_wordchars hall
            (fun c hc => hund c (mem_of_mem_seg hsg hc))
        · have h1 := List.any_eq_false.mp herr _ hwmem
          simpa using h1
        · exact hedge _ hwmem
  rw [List.map_congr_left hpoint]
  exact segmentize_join s

theorem fdCorrect_eq_rejoin (lex : Lexicon) (dist : Nat) (s : List Char) :
    fdCorrect lex dist s = rejoinWith (fun w =>
      if w.all Char.isWhitespace || ! pyIsAlnumChar (w.headD ' ') then w
      else fdFixWord lex dist w) s := by
  rw [fdCorrect, rejoinWith]
  congr 1
  apply List.map_congr_left
  intro sg hsg
  cases sg with
  | word w => rfl
  | gap g =>
    obtain ⟨hne, hall⟩ := segmentize_ok s _ hsg
    obtain ⟨c, cs, rfl⟩ := List.exists_cons_of_ne_nil hne
    show (if (c :: cs).all Char.isWhitespace ||
        ! pyIsAlnumChar ((c :: cs).headD ' ') then c :: cs
      else fdFixWord lex dist (c :: cs)) = c :: cs
    rw [if_pos]
    simp only [List.headD_cons]
    rw [not_alnum_of_not_wordChar (hall c (List.mem_cons_self _ _))]
    simp

theorem notAndNot_false {a b : Bool} (h : (! a && ! b) = false) :
    (a || b) = true := by
  cases a <;> cases b <;> simp_all

theorem foldl_filter_append {α : Type} (category names : List String)
    (payload : Detector → α) :
    ∀ (ds : List Detector) (acc : List α),
      ds.foldl (fun results d =>
        if ! category.isEmpty && ! category.contains d.cat then results
        else if ! names.isEmpty && ! names.contains d.name then results
        else results ++ [payload d]) acc =
      acc ++ (ds.filter (passesFilter category names)).map payload := by
  intro ds
  induction ds with
  | nil => intro acc; simp
  | cons d rest ih =>
    intro acc
    rw [List.foldl_cons, List.filter_cons]
    by_cases hA : (! category.isEmpty && ! category.contains d.cat) = true
    · obtain ⟨ha, hb⟩ := (Bool.and_eq_true _ _).mp hA
      rw [Bool.not_eq_true'] at ha hb
      have hp : passesFilter category names d = false := by
        rw [passesFilter, ha, hb]
        simp
      rw [if_pos hA, ih]
      simp [hp]
    · rw [if_neg hA]
      by_cases hB : (! names.isEmpty && ! names.contains d.name) = true
      · obtain ⟨ha, hb⟩ := (Bool.and_eq_true _ _).mp hB
        rw [Bool.not_eq_true'] at ha hb
        have hp : passesFilter category names d = false := by
          rw [passesFilter, ha, hb]
          simp
        rw [if_pos hB, ih]
        simp [hp]
      · rw [if_neg hB]
        have hp : passesFilter category names d = true := by
          rw [passesFilter]
          rw [notAndNot_false (Bool.not_eq_true _ ▸ eq_false_of_ne_true hA),
            notAndNot_false (Bool.not_eq_true _ ▸ eq_false_of_ne_true hB)]
          rfl
        rw [ih, hp]
        simp [List.append_assoc]

/-- C4: Orchestrator.get_error invokes every filter-passing detector in
registry order and returns exactly one (category, name, has_error) triple per
such detector; a detector that raises contributes (its static category, its
static name, False) in its position, all other detectors' results are
unchanged, and the call itself always returns. -/
theorem c4_get_error_fault_containment (o : Orchestrator) (s : String)
    (category names : List String) :
    o.getError s category names =
      (o.allDetectors.filter (passesFilter category names)).map (detectorResult s) := by
  rw [Orchestrator.getError]
  have hfun : (fun (results : List (String × String × Bool)) d =>
      if ! category.isEmpty && ! category.contains d.cat then results
      else if ! names.isEmpty && ! names.contains d.name then results
      else match d.getErr s with
        | some r => results ++ [r]
        | none => results ++ [(d.cat, d.name, false)]) =
      (fun results d =>
      if ! category.isEmpty && ! category.contains d.cat then results
      else if ! names.isEmpty && ! names.contains d.name then results
      else results ++ [detectorResult s d]) := by
    funext results d
    cases hg : d.getErr s <;> simp [detectorResult, hg]
  rw [hfun, foldl_filter_append]
  simp

/-- C5: Orchestrator.get_suggestions evaluates every filter-passing detector
against the unmodified original sentence: each record is a function of that
one detector and the original input alone (no detector's correction feeds
another's suggestion), the suggested text is the detector's correct applied to
the original sentence when it reports an error, and the original sentence when
it reports no error (or raises). -/
theorem c5_suggestions_independent (o : Orchestrator) (s : String)
    (category names : List String) :
    o.getSuggestions s category names =
      (o.allDetectors.filter (passesFilter category names)).map (suggestFor s) := by
  rw [Orchestrator.getSuggestions]
  have hfun : (fun (results : List (String × String × Bool × String)) d =>
      if ! category.isEmpty && ! category.contains d.cat then results
      else if ! names.isEmpty && ! names.contains d.name then results
      else match d.getErr s with
        | some r =>
          if r.2.2 then
            match d.corr s with
            | some t => results ++ [(r.1, r.2.1, r.2.2, t)]
            | none => results ++ [(d.cat, d.name, false, s)]
          else results ++ [(r.1, r.2.1, r.2.2, s)]
        | none => results ++ [(d.cat, d.name, false, s)]) =
      (fun results d =>
      if ! category.isEmpty && ! category.contains d.cat then results
      else if ! names.isEmpty && ! names.contains d.name then results
      else results ++ [suggestFor s d]) := by
    funext results d
    cases hg : d.getErr s with
    | none => simp [suggestFor, hg]
    | some r =>
      cases hr : r.2.2 <;> [skip; cases hc : d.corr s] <;>
        simp_all [suggestFor]
  rw [hfun, foldl_filter_append]
  simp

/-- C6: Orchestrator.correct (cascaded mode) applies detectors in exactly the
registry order used by get_error and get_suggestions: the hardcoded phase
sequence equals folding applySafe over the all_detectors list in order, where
each step checks get_error on the current buffer and replaces the buffer with
that detector's correction only when an error is reported. -/
theorem c6_cascade_registry_order (o : Orchestrator) (s : String)
    (category names : List String) :
    o.correct s category names =
      o.allDetectors.foldl (fun t d => applySafe category names d t) s := rfl

/-- C9: within one classifier's correction pass, a token whose replacement
computation fails (yields no fix) is left verbatim in place, while the
replacements of all other tokens are still applied: one bad token never aborts
the pass. -/
theorem c9_token_fault_containment (pw : Word → Option Word) (s : List Char)
    (w0 : Word) (h : pw w0 = none) :
    spliceCorrect pw s =
      rejoinWith (fun w => if w = w0 then w else (pw w).getD w) s := by
  rw [spliceCorrect_eq_rejoin]
  apply rejoinWith_congr
  intro w _
  by_cases hw : w = w0
  · rw [hw, if_pos rfl, h]
    rfl
  · rw [if_neg hw]

/-- Witness for C9 at a concrete failing replacement function and sentence. -/
theorem c9_witness :
    spliceCorrect (fun _ => none) ("ab".toList) =
      rejoinWith (fun w => if w = "ab".toList then w
        else ((none : Option Word)).getD w) ("ab".toList) :=
  c9_token_fault_containment (fun _ => none) ("ab".toList) ("ab".toList) rfl

/-- C3: every classifier's correct is position-stable: the replacement spans
are in strictly ascending start order (so the reversed processing order is
descending, rightmost first), and the output equals the original sentence with
exactly the replaced word tokens substituted — every non-word span and every
untouched token is preserved verbatim, for all four splice-based letter
classifiers and for FormDiacritic's token-stream rebuild. -/
theorem c3_descending_position_stable (pw : Word → Option Word)
    (v : Word → Bool) (lex : Lexicon) (dist : Nat) (s : List Char) :
    List.Pairwise (fun a b => a < b) ((replacementsOf pw s).map (fun m => m.1)) ∧
    lmCorrect v lex dist s =
      rejoinWith (fun w => (lmPerWord v lex dist w).getD w) s ∧
    liCorrect v lex dist s =
      rejoinWith (fun w => (liPerWord v lex dist w).getD w) s ∧
    lsCorrect v lex dist s =
      rejoinWith (fun w => (lsPerWord v lex dist w).getD w) s ∧
    loCorrect v lex s = rejoinWith (fun w => (loPerWord v lex w).getD w) s ∧
    fdCorrect lex dist s = rejoinWith (fun w =>
      if w.all Char.isWhitespace || ! pyIsAlnumChar (w.headD ' ') then w
      else fdFixWord lex dist w) s :=
  ⟨replacementsOf_sorted pw s, spliceCorrect_eq_rejoin _ s,
   spliceCorrect_eq_rejoin _ s, spliceCorrect_eq_rejoin _ s,
   spliceCorrect_eq_rejoin _ s, fdCorrect_eq_rejoin lex dist s⟩

/-- Counterexample to C1 as stated: on a dictionary where the best diacritic
sibling of the in-dictionary token "francais" is exactly 10 times as frequent,
FormDiacritic.get_error reports no error (strict greater-than fails at
equality) yet FormDiacritic.correct rewrites the sentence. -/
theorem c1_counterexample :
    fdGetError lexFr 1 ("francais".toList) = false ∧
    fdCorrect lexFr 1 ("francais".toList) ≠ ("francais".toList) := by
  refine ⟨by decide, by decide⟩

/-- C1 (amended): if get_error reports no error then correct returns the input
unchanged, for each of LetterMissing, LetterInsertion, LetterSubstitution and
LetterOrder unconditionally; for FormDiacritic the same holds provided no word
token contains an underscore (stripped before lookup) and no in-dictionary
token sits exactly on the 10-times frequency threshold, where detection
(strict) and correction (non-strict) disagree. -/
theorem c1_no_error_noop (v : Word → Bool) (lex : Lexicon) (dist : Nat)
    (s : List Char) :
    (lmGetError v lex dist s = false → lmCorrect v lex dist s = s) ∧
    (liGetError v lex dist s = false → liCorrect v lex dist s = s) ∧
    (lsGetError v lex dist s = false → lsCorrect v lex dist s = s) ∧
    (loGetError v lex s = false → loCorrect v lex s = s) ∧
    (lex.WF → (∀ c ∈ s, c ≠ '_') → fdGetError lex dist s = false →
      (∀ w ∈ wordsOf (pyLowerStr s), fdTenfoldEdge lex dist w = false) →
      fdCorrect lex dist s = s) :=
  ⟨lm_noop v lex dist s, li_noop v lex dist s, ls_noop v lex dist s,
   lo_noop v lex s, fun hWF hund herr hedge => fd_noop lex dist s hWF hund herr hedge⟩

/-- Witness for the amended C1 at a concrete dictionary, validator and
sentence, discharging every hypothesis. -/
theorem c1_witness :
    lmCorrect vTrue lexDe 1 ("de".toList) = "de".toList ∧
    liCorrect vTrue lexDe 1 ("de".toList) = "de".toList ∧
    lsCorrect vTrue lexDe 1 ("de".toList) = "de".toList ∧
    loCorrect vTrue lexDe ("de".toList) = "de".toList ∧
    fdCorrect lexDe 1 ("de".toList) = "de".toList := by
  have h := c1_no_error_noop vTrue lexDe 1 ("de".toList)
  exact ⟨h.1 (by decide), h.2.1 (by decide), h.2.2.1 (by decide),
    h.2.2.2.1 (by decide),
    h.2.2.2.2 (show ∀ p ∈ lexDe.entries, 1 ≤ p.2 by decide)
      (by decide) (by decide) (by decide)⟩

/-- Counterexample to C2 as stated: the token "francais" is valid for the
safety Validator (it is in the frequency dictionary), yet FormDiacritic's
correct — which never consults the Validator — modifies it. -/
theorem c2_counterexample :
    (ValidatorM.mk [] lexFr).isValid ("francais".toList) = true ∧
    fdCorrect lexFr 1 ("francais".toList) ≠ ("francais".toList) := by
  refine ⟨by decide, by decide⟩

/-- C2 (amended): the four letter classifiers consult the Validator gate and
skip valid tokens — their correct equals the gap-preserving rebuild in which
every token approved by the Validator maps to itself; FormDiacritic does not
consult the gate (see the counterexample). -/
theorem c2_gate_respect (v : Word → Bool) (lex : Lexicon) (dist : Nat)
    (s : List Char) :
    (lmCorrect v lex dist s =
        rejoinWith (fun w => (lmPerWord v lex dist w).getD w) s ∧
      ∀ w : Word, v w = true → (lmPerWord v lex dist w).getD w = w) ∧
    (liCorrect v lex dist s =
        rejoinWith (fun w => (liPerWord v lex dist w).getD w) s ∧
      ∀ w : Word, v w = true → (liPerWord v lex dist w).getD w = w) ∧
    (lsCorrect v lex dist s =
        rejoinWith (fun w => (lsPerWord v lex dist w).getD w) s ∧
      ∀ w : Word, v w = true → (lsPerWord v lex dist w).getD w = w) ∧
    (loCorrect v lex s = rejoinWith (fun w => (loPerWord v lex w).getD w) s ∧
      ∀ w : Word, v w = true → (loPerWord v lex w).getD w = w) := by
  refine ⟨⟨spliceCorrect_eq_rejoin _ s, ?_⟩, ⟨spliceCorrect_eq_rejoin _ s, ?_⟩,
    ⟨spliceCorrect_eq_rejoin _ s, ?_⟩, ⟨spliceCorrect_eq_rejoin _ s, ?_⟩⟩ <;>
    intro w hv
  · rw [lmPerWord, if_pos hv]
    rfl
  · rw [liPerWord, if_pos hv]
    rfl
  · rw [lsPerWord, if_pos hv]
    rfl
  · rw [loPerWord, if_pos hv]
    rfl

/-- Witness for the amended C2: a validator-approved token is left unmodified
by each letter classifier's per-token step. -/
theorem c2_witness :
    (lmPerWord vTrue lexDe 1 ("de".toList)).getD ("de".toList) = "de".toList ∧
    (liPerWord vTrue lexDe 1 ("de".toList)).getD ("de".toList) = "de".toList ∧
    (lsPerWord vTrue lexDe 1 ("de".toList)).getD ("de".toList) = "de".toList ∧
    (loPerWord vTrue lexDe ("de".toList)).getD ("de".toList) = "de".toList := by
  have h := c2_gate_respect vTrue lexDe 1 ("de".toList)
  exact ⟨h.1.2 _ rfl, h.2.1.2 _ rfl, h.2.2.1.2 _ rfl, h.2.2.2.2 _ rfl⟩

/-- Counterexample to C7 as stated: the fully upper-case token "COMMMUNE" is
corrected by LetterInsertion to "Commune" (capitalize), not to the fully
upper-cased replacement "COMMUNE". -/
theorem c7_counterexample :
    pyIsUpper ("COMMMUNE".toList) = true ∧
    liCorrect vFalse lexCommune 1 ("COMMMUNE".toList) = "Commune".toList ∧
    ("Commune".toList : Word) ≠ pyUpperStr ("commune".toList) := by
  refine ⟨by decide, by decide, by decide⟩

/-- C7 (amended): LetterMissing, LetterSubstitution and LetterOrder case-match
their replacements through _match_case (fully upper-case original yields an
upper-cased replacement, title-case original a capitalized one, otherwise the
replacement is as generated); LetterInsertion instead only capitalizes the
replacement when the first character of the original is uppercase, so a fully
upper-case token receives a merely capitalized replacement. -/
theorem c7_case_matching (v : Word → Bool) (lex : Lexicon) (dist : Nat)
    (w r orig fix : Word) :
    (pyIsUpper orig = true → matchCase orig fix = pyUpperStr fix) ∧
    (pyIsUpper orig = false → pyIsTitle orig = true →
      matchCase orig fix = pyCapitalize fix) ∧
    (pyIsUpper orig = false → pyIsTitle orig = false →
      matchCase orig fix = fix) ∧
    (lmPerWord v lex dist w = some r →
      ∃ f, lmGetMissingCorrection lex dist (pyLowerStr w) = some f ∧
        r = matchCase w f) ∧
    (lsPerWord v lex dist w = some r →
      ∃ f, lsGetSubstitutionCorrection lex dist w = some f ∧
        r = matchCase w f) ∧
    (loPerWord v lex w = some r →
      ∃ f, loGetOrderCorrection lex (pyLowerStr w) = some f ∧
        r = matchCase w f) ∧
    (liPerWord v lex dist w = some r →
      ∃ f, liGetCorrection lex dist w = some f ∧
        r = (if isUpperChar (w.headD ' ') then pyCapitalize f else f)) := by
  refine ⟨?_, ?_, ?_, ?_, ?_, ?_, ?_⟩
  · intro h
    rw [matchCase, if_pos h]
  · intro h1 h2
    rw [matchCase, if_neg (by simp [h1]), if_pos h2]
  · intro h1 h2
    rw [matchCase, if_neg (by simp [h1]), if_neg (by simp [h2])]
  · intro h
    rw [lmPerWord] at h
    by_cases hv : v w = true
    · rw [if_pos hv] at h
      exact absurd h (by simp)
    · rw [if_neg hv] at h
      by_cases hk : lex.known (pyLowerStr w) = true
      · rw [if_pos hk] at h
        exact absurd h (by simp)
      · rw [if_neg hk] at h
        cases hg : lmGetMissingCorrection lex dist (pyLowerStr w) with
        | none =>
          rw [hg] at h
          exact absurd h (by simp)
        | some f =>
          rw [hg] at h
          exact ⟨f, rfl, (Option.some.inj h).symm⟩
  · intro h
    rw [lsPerWord] at h
    by_cases hv : v w = true
    · rw [if_pos hv] at h
      exact absurd h (by simp)
    · rw [if_neg hv] at h
      by_cases hk : lex.known (pyLowerStr w) = true
      · rw [if_pos hk] at h
        exact absurd h (by simp)
      · rw [if_neg hk] at h
        cases hg : lsGetSubstitutionCorrection lex dist w with
        | none =>
          rw [hg] at h
          exact absurd h (by simp)
        | some f =>
          rw [hg] at h
          exact ⟨f, rfl, (Option.some.inj h).symm⟩
  · intro h
    rw [loPerWord] at h
    by_cases hv : v w = true
    · rw [if_pos hv] at h
      exact absurd h (by simp)
    · rw [if_neg hv] at h
      cases hg : loGetOrderCorrection lex (pyLowerStr w) with
      | none =>
        rw [hg] at h
        exact absurd h (by simp)
      | some f =>
        rw [hg] at h
        exact ⟨f, rfl, (Option.some.inj h).symm⟩
  · intro h
    rw [liPerWord] at h
    by_cases hv : v w = true
    · rw [if_pos hv] at h
      exact absurd h (by simp)
    · rw [if_neg hv] at h
      by_cases hk : lex.known (pyLowerStr w) = true
      · rw [if_pos hk] at h
        exact absurd h (by simp)
      · rw [if_neg hk] at h
        cases hg : liGetCorrection lex dist w with
        | none =>
          rw [hg] at h
          exact absurd h (by simp)
        | some f =>
          rw [hg] at h
          exact ⟨f, rfl, (Option.some.inj h).symm⟩

/-- Witness for the amended C7: the upper-case branch of _match_case at a
concrete token, and LetterInsertion's capitalize-only case handling at the
concrete fully upper-case token "COMMMUNE". -/
theorem c7_witness :
    matchCase ("COMUNE".toList) ("commune".toList) =
      pyUpperStr ("commune".toList) ∧
    (∃ f, liGetCorrection lexCommune 1 ("COMMMUNE".toList) = some f ∧
      ("Commune".toList : Word) =
        (if isUpperChar (("COMMMUNE".toList).headD ' ')
          then pyCapitalize f else f)) := by
  have h := c7_case_matching vFalse lexCommune 1 ("COMMMUNE".toList)
    ("Commune".toList) ("COMUNE".toList) ("commune".toList)
  exact ⟨h.1 (by decide), h.2.2.2.2.2.2 (by decide)⟩

/-- C8: the Transposition classifier accepts a candidate for a token exactly
when both have equal length, are anagrams, and the candidate is obtained from
the token by one adjacent-character swap; the returned correction is an
accepted candidate of maximal dictionary frequency among the accepted ones. -/
theorem c8_transposition_rule :
    (∀ (lex : Lexicon) (w r : Word), loGetOrderCorrection lex w = some r →
      r ∈ lex.candidates 1 w ∧ canBeObtainedBySwapping w r = true ∧
      ∀ c ∈ lex.candidates 1 w, canBeObtainedBySwapping w c = true →
        lex.freqOf c ≤ lex.freqOf r) ∧
    (∀ w c : Word, canBeObtainedBySwapping w c = true ↔
      (w.length = c.length ∧ w.Perm c ∧
        ∃ i, i + 1 < w.length ∧ swapAt w i = c)) := by
  constructor
  · intro lex w r h
    rw [loGetOrderCorrection] at h
    by_cases he : w.isEmpty = true
    · rw [if_pos he] at h
      exact absurd h (by simp)
    · rw [if_neg he] at h
      by_cases hc : (lex.candidates 1 w).isEmpty = true
      · rw [if_pos hc] at h
        exact absurd h (by simp)
      · rw [if_neg hc] at h
        cases hv : (lex.candidates 1 w).filter
            (fun c => canBeObtainedBySwapping w c) with
        | nil =>
          rw [hv] at h
          exact absurd h (by simp)
        | cons x xs =>
          rw [hv] at h
          have hr : r = pyMaxBy lex.freqOf x xs := (Option.some.inj h).symm
          have hmem : r ∈ x :: xs := hr ▸ pyMaxBy_mem lex.freqOf xs x
          rw [← hv] at hmem
          have hmem' := List.mem_filter.mp hmem
          refine ⟨hmem'.1, hmem'.2, ?_⟩
          intro c hcmem hswap
          have hcv : c ∈ x :: xs := by
            rw [← hv]
            exact List.mem_filter.mpr ⟨hcmem, hswap⟩
          exact hr ▸ pyMaxBy_le lex.freqOf xs x c hcv
  · intro w c
    rw [canBeObtainedBySwapping]
    by_cases hlen : w.length = c.length
    · rw [if_neg (by simp [hlen])]
      by_cases hsort : List.insertionSort (fun a b => a ≤ b) w =
          List.insertionSort (fun a b => a ≤ b) c
      · rw [if_neg (by simp [hsort])]
        have h1 : List.Perm (List.insertionSort (fun a b => a ≤ b) w) c := by
          rw [hsort]
          exact List.perm_insertionSort _ c
        have hperm : w.Perm c := (List.perm_insertionSort _ w).symm.trans h1
        constructor
        · intro hany
          obtain ⟨i, hi, heq⟩ := List.any_eq_true.mp hany
          have hi' : i < w.length - 1 := List.mem_range.mp hi
          refine ⟨hlen, hperm, i, by omega, by simpa using heq⟩
        · rintro ⟨_, _, i, hi, heq⟩
          apply List.any_eq_true.mpr
          refine ⟨i, List.mem_range.mpr (by omega), by simp [heq]⟩
      · rw [if_pos hsort]
        constructor
        · intro hfalse
          exact absurd hfalse (by simp)
        · rintro ⟨_, hperm, _⟩
          exfalso
          apply hsort
          have hps : List.Perm (List.insertionSort (fun a b => a ≤ b) w)
              (List.insertionSort (fun a b => a ≤ b) c) :=
            (List.perm_insertionSort _ w).trans
              (hperm.trans (List.perm_insertionSort _ c).symm)
          exact List.eq_of_perm_of_sorted hps
            (List.sorted_insertionSort _ w) (List.sorted_insertionSort _ c)
    · rw [if_pos (by simp [hlen])]
      simp [hlen]

/-- Witness for C8: on the dictionary containing "fromage", the correction of
"formage" is an accepted swap candidate of maximal frequency. -/
theorem c8_witness :
    ("fromage".toList : Word) ∈ lexFromage.candidates 1 ("formage".toList) ∧
    canBeObtainedBySwapping ("formage".toList) ("fromage".toList) = true ∧
    ∀ c ∈ lexFromage.candidates 1 ("formage".toList),
      canBeObtainedBySwapping ("formage".toList) c = true →
        lexFromage.freqOf c ≤ lexFromage.freqOf ("fromage".toList) :=
  c8_transposition_rule.1 lexFromage ("formage".toList) ("fromage".toList)
    (by decide)

/-- C10: FormDiacritic modifies an in-dictionary (lowercase) token only when
the best diacritic sibling's count is at least 10 times the token's own;
detection uses the strict comparison; and at the concrete dictionary where the
sibling count equals exactly 10 times the token's, get_error reports no error
yet correct changes the token. -/
theorem c10_tenfold_threshold :
    (∀ (lex : Lexicon) (dist : Nat) (w : Word), lex.known w = true →
      pyLowerStr (stripPunct w) = w → fdFixWord lex dist w ≠ w →
      ∃ x xs, fdPossibleCorrections lex dist w = x :: xs ∧
        lex.freqOf w * 10 ≤ lex.freqOf (pyMaxBy lex.freqOf x xs)) ∧
    (∀ (lex : Lexicon) (dist : Nat) (w : Word), lex.known w = true →
      fdIsError lex dist w = true →
      ∃ x xs, fdPossibleCorrections lex dist w = x :: xs ∧
        pyMaxBy lex.freqOf x xs ≠ w ∧
        lex.freqOf w * 10 < lex.freqOf (pyMaxBy lex.freqOf x xs)) ∧
    (fdGetError lexFr 1 ("francais".toList) = false ∧
      fdCorrect lexFr 1 ("francais".toList) ≠ ("francais".toList) ∧
      lexFr.freqOf ("français".toList) = lexFr.freqOf ("francais".toList) * 10) := by
  refine ⟨?_, ?_, by decide, by decide, by decide⟩
  · intro lex dist w hk hlow hfix
    rw [fdFixWord, hlow] at hfix
    cases hp : fdPossibleCorrections lex dist w with
    | nil =>
      rw [hp] at hfix
      exact absurd rfl hfix
    | cons x xs =>
      rw [hp] at hfix
      refine ⟨x, xs, rfl, ?_⟩
      by_contra hlt
      exact hfix (if_pos (by rw [hk]; simp [not_le.mp hlt]))
  · intro lex dist w hk herr
    rw [fdIsError, hk] at herr
    simp only [Bool.not_true] at herr
    rw [if_neg Bool.false_ne_true] at herr
    cases hp : fdPossibleCorrections lex dist w with
    | nil =>
      rw [hp] at herr
      exact absurd herr (by simp)
    | cons x xs =>
      rw [hp] at herr
      have hand := (Bool.and_eq_true _ _).mp herr
      exact ⟨x, xs, rfl, of_decide_eq_true hand.1, of_decide_eq_true hand.2⟩

/-- Witness for C10: the correction branch fires at exactly 10 times (lexFr)
and the detection branch at strictly more than 10 times (lexFr11). -/
theorem c10_witness :
    (∃ x xs, fdPossibleCorrections lexFr 1 ("francais".toList) = x :: xs ∧
      lexFr.freqOf ("francais".toList) * 10 ≤
        lexFr.freqOf (pyMaxBy lexFr.freqOf x xs)) ∧
    (∃ x xs, fdPossibleCorrections lexFr11 1 ("francais".toList) = x :: xs ∧
      pyMaxBy lexFr11.freqOf x xs ≠ "francais".toList ∧
      lexFr11.freqOf ("francais".toList) * 10 <
        lexFr11.freqOf (pyMaxBy lexFr11.freqOf x xs)) :=
  ⟨c10_tenfold_threshold.1 lexFr 1 ("francais".toList) (by decide) (by decide)
      (by decide),
   c10_tenfold_threshold.2.1 lexFr11 1 ("francais".toList) (by decide)
      (by decide)⟩
